import Mathlib

/-!
# Verification of the `PinCode32Service` codec (`src/main.py`)

A shallow embedding of the base-32 codec, the escaping transform and the
normalization pipeline of `src/main.py`, together with proofs and refutations
of the specified properties.  Strings are modelled as `List Char`; Python's
arbitrary-precision non-negative results are `Nat`, encode's argument is `Int`
(it may be negative); fallible operations return `Except String Nat` mirroring
the raised `ValueError` message.
-/

namespace PinCode32

/-- The 32-symbol alphabet, `self.charset = "0123456789ABCDEFGHJKMNPQRSTuVWXY"`
(`src/main.py:47`).  Written as an explicit character list. -/
def charset : List Char :=
  ['0', '1', '2', '3', '4', '5', '6', '7', '8', '9',
   'A', 'B', 'C', 'D', 'E', 'F', 'G', 'H', 'J', 'K',
   'M', 'N', 'P', 'Q', 'R', 'S', 'T', 'u', 'V', 'W', 'X', 'Y']

/-- `char -> index` pairs of the charset, the initial contents of
`self.decode_map` (`src/main.py:50`). -/
def charsetPairs : List (Char × Nat) :=
  charset.enum.map (fun p => (p.2, p.1))

/-- The lower-case additions of `src/main.py:52-54`: for every alphabetic
charset character other than `'u'`, its lower-case form maps to the same
value. -/
def lowerPairs : List (Char × Nat) :=
  charsetPairs.filterMap
    (fun p => if p.1.isAlpha ∧ p.1 ≠ 'u' then some (p.1.toLower, p.2) else none)

/-- `char_alias` of `B32_FUZZY_CONFIG` (`src/main.py:16-22`), in declaration
order. -/
def charAlias : List (Char × Char) :=
  [('O', '0'), ('o', '0'), ('I', '1'), ('i', '1'),
   ('L', '1'), ('l', '1'), ('Z', '2'), ('z', '2'),
   ('U', 'u'), ('u', 'u')]

/-- The alias additions of `src/main.py:56-59`: each alias key whose target is
already in the decode map receives the target's value.  At that point the map
holds exactly the charset and lower-case pairs. -/
def aliasPairs : List (Char × Nat) :=
  charAlias.filterMap
    (fun p => (List.lookup p.2 (charsetPairs ++ lowerPairs)).map (fun v => (p.1, v)))

/-- `self.decode_map` as a lookup function.  Python dict assignment lets the
latest write win, so the alias pairs (written last) take precedence, then the
lower-case pairs, then the charset pairs; the only key written twice across
stages is `'u'`, with the same value `27` both times. -/
def decodeMap (c : Char) : Option Nat :=
  List.lookup c (aliasPairs ++ lowerPairs ++ charsetPairs)

/-- The while-loop of `encode` (`src/main.py:92-94`): remainders of repeated
division by `self.base = 32`, least-significant digit first, each mapped
through the charset. -/
def toDigitsRev (n : Nat) : List Char :=
  if h : n = 0 then []
  else charset.getD (n % 32) '0' :: toDigitsRev (n / 32)
decreasing_by exact Nat.div_lt_self (Nat.pos_of_ne_zero h) (by decide)

/-- `encoded.zfill(2) if len(encoded) < 2 else encoded` (`src/main.py:97`):
left-pad with the zero digit to a minimum length of 2.  `zfill`'s sign
handling is irrelevant: the argument consists of charset characters only. -/
def zfill2 (s : List Char) : List Char :=
  if s.length < 2 then List.replicate (2 - s.length) '0' ++ s else s

/-- `PinCode32Service.encode` (`src/main.py:86-97`).  A negative argument
returns the literal string `"ERROR"`; zero returns `"00"`; otherwise the
reversed remainder digits, padded to length at least 2. -/
def encode (number : Int) : List Char :=
  if number < 0 then ['E', 'R', 'R', 'O', 'R']
  else if number = 0 then ['0', '0']
  else zfill2 (toDigitsRev number.toNat).reverse

/-- The accumulation loop of `decode` (`src/main.py:160-168`):
`total = total * self.base + val`, with the configured policy deciding what an
unmapped character contributes (`skip`: nothing; `zero`: digit value 0;
anything else: raise `ValueError(f"Invalid character: \x7bch\x7d")`). -/
def decodeGo (p : String) (total : Nat) : List Char → Except String Nat
  | [] => .ok total
  | ch :: rest =>
    match decodeMap ch with
    | some val => decodeGo p (total * 32 + val) rest
    | none =>
      if p = "skip" then decodeGo p total rest
      else if p = "zero" then decodeGo p (total * 32 + 0) rest
      else .error ("Invalid character: " ++ ch.toString)

/-- Python `str.lower()` as applied to the policy string (`src/main.py:159`);
character-wise ASCII lowering, which agrees with Python on the ASCII policy
names involved. -/
def pyLower (s : String) : String :=
  ⟨s.data.map Char.toLower⟩

/-- `PinCode32Service.decode` (`src/main.py:157-169`), parameterised by the
configured `invalid_char_policy` value, to which the source applies
`.lower()` before the loop. -/
def decode (policy : String) (s : List Char) : Except String Nat :=
  decodeGo (pyLower policy) 0 s

end PinCode32

namespace PinCode32

/-- Equality of decode results is decidable, so concrete decode runs can be
checked by `decide`. -/
instance : DecidableEq (Except String Nat) := fun x y =>
  match x, y with
  | .ok a, .ok b =>
    if h : a = b then isTrue (by rw [h]) else isFalse (by simp [h])
  | .error a, .error b =>
    if h : a = b then isTrue (by rw [h]) else isFalse (by simp [h])
  | .ok _, .error _ => isFalse (by simp)
  | .error _, .ok _ => isFalse (by simp)

/-- Every charset digit decodes back to its index. -/
lemma decodeMap_charset : ∀ i, i < 32 → decodeMap (charset.getD i '0') = some i := by
  decide

/-- The zero digit decodes to value `0`. -/
lemma decodeMap_zero_digit : decodeMap '0' = some 0 := by decide

/-- The accumulation loop distributes over appending: the total accumulated on
the first part feeds the second part, and an error on the first part is the
overall result. -/
lemma decodeGo_append (p : String) (xs ys : List Char) :
    ∀ t, decodeGo p t (xs ++ ys) =
      match decodeGo p t xs with
      | .ok r => decodeGo p r ys
      | .error e => .error e := by
  induction xs with
  | nil => intro t; rfl
  | cons c xs ih =>
    intro t
    cases h : decodeMap c with
    | some v => simp [decodeGo, h, ih]
    | none =>
      by_cases hs : p = "skip"
      · subst hs; simp [decodeGo, h, ih]
      · by_cases hz : p = "zero"
        · subst hz; simp [decodeGo, h, hs, ih]
        · simp [decodeGo, h, hs, hz]

/-- Decoding the reversed remainder digits of `n` on top of an accumulated
total `t` yields `t * 32 ^ digits + n`, for any policy (every digit is in the
decode map, so the policy branch is never taken). -/
lemma decodeGo_toDigitsRev (p : String) :
    ∀ n t, decodeGo p t (toDigitsRev n).reverse =
      .ok (t * 32 ^ (toDigitsRev n).length + n) := by
  intro n
  induction n using Nat.strong_induction_on with
  | _ n ih =>
    intro t
    by_cases h : n = 0
    · subst h
      rw [toDigitsRev]
      simp [decodeGo]
    · rw [toDigitsRev]
      simp only [dif_neg h]
      rw [List.reverse_cons, decodeGo_append,
        ih (n / 32) (Nat.div_lt_self (Nat.pos_of_ne_zero h) (by decide)) t]
      have hd : decodeMap (charset.getD (n % 32) '0') = some (n % 32) :=
        decodeMap_charset _ (Nat.mod_lt _ (by decide))
      simp only [decodeGo, hd, List.length_cons]
      rw [pow_succ, ← mul_assoc]
      congr 1
      generalize t * 32 ^ (toDigitsRev (n / 32)).length = B
      omega

/-- A positive number has at least one digit. -/
lemma toDigitsRev_ne_nil {n : Nat} (h : n ≠ 0) : toDigitsRev n ≠ [] := by
  rw [toDigitsRev]
  simp [h]

/-- `"reject"` is untouched by the policy lowering. -/
lemma pyLower_reject : pyLower "reject" = "reject" := by decide

/-- C1: for every non-negative integer `n`, decoding the string produced by
`encode n` under the reject policy yields `n` back; no character of the
output is outside the decode map, so the policy branch is never taken. -/
theorem c1_decode_encode_roundtrip (n : Nat) :
    decode "reject" (encode (n : Int)) = .ok n := by
  by_cases h0 : n = 0
  · subst h0; decide
  · unfold decode encode
    have h1 : ¬((n : Int) < 0) := by
      simp [Int.natCast_nonneg]
    have h2 : ¬((n : Int) = 0) := by exact_mod_cast h0
    rw [if_neg h1, if_neg h2]
    have h3 : (n : Int).toNat = n := Int.toNat_natCast n
    rw [h3, pyLower_reject]
    unfold zfill2
    by_cases hl : (toDigitsRev n).reverse.length < 2
    · rw [if_pos hl]
      have hlen : (toDigitsRev n).reverse.length = 1 := by
        have hne := toDigitsRev_ne_nil h0
        have := List.length_pos.mpr hne
        rw [List.length_reverse] at hl ⊢
        omega
      rw [hlen]
      have hrep : List.replicate (2 - 1) '0' = ['0'] := rfl
      rw [hrep, List.singleton_append]
      simp only [decodeGo, decodeMap_zero_digit]
      norm_num
      rw [decodeGo_toDigitsRev]
      norm_num
    · rw [if_neg hl]
      rw [decodeGo_toDigitsRev]
      norm_num

/-- C2 counterexample: a negative input does not fail with an error; `encode`
returns the ordinary five-character string `"ERROR"`. -/
theorem c2_counterexample : encode (-5) = ['E', 'R', 'R', 'O', 'R'] := by decide

/-- C2 (amended): for every negative integer, `encode` returns the sentinel
string `"ERROR"` rather than encoding the number; the negative input is
signalled through this in-band string, not through a raised error. -/
theorem c2_negative_error_string (n : Int) (h : n < 0) :
    encode n = ['E', 'R', 'R', 'O', 'R'] := by
  unfold encode
  rw [if_pos h]

theorem c2_witness : encode (-3) = ['E', 'R', 'R', 'O', 'R'] :=
  c2_negative_error_string (-3) (by decide)

/-- Under the reject policy the loop fails at the first unmapped character,
with a message naming that character only. -/
lemma decodeGo_reject_first_invalid (c : Char) (hc : decodeMap c = none)
    (suf : List Char) :
    ∀ pre, (∀ a ∈ pre, (decodeMap a).isSome) → ∀ t,
      decodeGo "reject" t (pre ++ c :: suf) =
        .error ("Invalid character: " ++ c.toString) := by
  intro pre
  induction pre with
  | nil =>
    intro _ t
    simp [decodeGo, hc]
  | cons a pre ih =>
    intro hpre t
    have ha : (decodeMap a).isSome := hpre a (List.mem_cons_self a pre)
    obtain ⟨v, hv⟩ := Option.isSome_iff_exists.mp ha
    simp only [List.cons_append, decodeGo, hv]
    exact ih (fun b hb => hpre b (List.mem_cons_of_mem a hb)) (t * 32 + v)

/-- C5 (amended): under the reject policy, a string whose first unmapped
character is `c` makes `decode` fail with the error message
`"Invalid character: c"`; the message identifies the offending character but
carries no position. -/
theorem c5_reject_error_names_character (pre : List Char) (c : Char)
    (suf : List Char) (hpre : ∀ a ∈ pre, (decodeMap a).isSome)
    (hc : decodeMap c = none) :
    decode "reject" (pre ++ c :: suf) =
      .error ("Invalid character: " ++ c.toString) := by
  unfold decode
  rw [pyLower_reject]
  exact decodeGo_reject_first_invalid c hc suf pre hpre 0

theorem c5_witness :
    decode "reject" ['0', '*', '1'] = .error "Invalid character: *" := by
  have h := c5_reject_error_names_character ['0'] '*' ['1'] (by decide) (by decide)
  exact h.trans (by decide)

/-- C5 counterexample: the same offending character at index 0 and at index 1
produces the identical error value, so the error does not identify the
position of the offending character. -/
theorem c5_counterexample :
    decode "reject" ['*', '0'] = .error "Invalid character: *" ∧
    decode "reject" ['0', '*'] = .error "Invalid character: *" := by decide

/-- C7: `encode 0` is exactly `"00"`, the output length is always at least 2,
and a one-digit natural result is left-padded with the zero digit `'0'`. -/
theorem c7_encode_zero_and_min_length :
    encode 0 = ['0', '0'] ∧
    (∀ n : Nat, 2 ≤ (encode (n : Int)).length) ∧
    (∀ n : Nat, 0 < n → n < 32 → encode (n : Int) = ['0', charset.getD n '0']) := by
  refine ⟨by decide, ?_, ?_⟩
  · intro n
    by_cases h0 : n = 0
    · subst h0; decide
    · unfold encode
      have h1 : ¬((n : Int) < 0) := by simp [Int.natCast_nonneg]
      have h2 : ¬((n : Int) = 0) := by exact_mod_cast h0
      rw [if_neg h1, if_neg h2]
      unfold zfill2
      by_cases hl : (toDigitsRev (n : Int).toNat).reverse.length < 2
      · rw [if_pos hl]
        simp only [List.length_append, List.length_replicate]
        omega
      · rw [if_neg hl]
        omega
  · intro n h1 h2
    have hn0 : n ≠ 0 := Nat.pos_iff_ne_zero.mp h1
    unfold encode
    have hi1 : ¬((n : Int) < 0) := by simp [Int.natCast_nonneg]
    have hi2 : ¬((n : Int) = 0) := by exact_mod_cast hn0
    rw [if_neg hi1, if_neg hi2, Int.toNat_natCast]
    have hd : toDigitsRev n = [charset.getD (n % 32) '0'] := by
      rw [toDigitsRev, dif_neg hn0]
      have hq : n / 32 = 0 := Nat.div_eq_of_lt h2
      rw [hq, toDigitsRev]
      simp
    rw [hd, Nat.mod_eq_of_lt h2]
    unfold zfill2
    simp [List.replicate]

theorem c7_witness : encode ((31 : Nat) : Int) = ['0', 'Y'] := by
  have h := c7_encode_zero_and_min_length.2.2 31 (by decide) (by decide)
  exact h.trans (by decide)

/-- Skipped characters contribute nothing, anywhere in the string. -/
lemma decodeGo_skip_drop (c : Char) (hc : decodeMap c = none) (suf : List Char) :
    ∀ pre t, decodeGo "skip" t (pre ++ c :: suf) = decodeGo "skip" t (pre ++ suf) := by
  intro pre
  induction pre with
  | nil => intro t; simp [decodeGo, hc]
  | cons a pre ih =>
    intro t
    cases h : decodeMap a with
    | some v => simp [decodeGo, h, ih]
    | none => simp [decodeGo, h, ih]

/-- Under the zero policy an unmapped character behaves exactly like the zero
digit `'0'`: the accumulated total is multiplied by 32. -/
lemma decodeGo_zero_subst (c : Char) (hc : decodeMap c = none) (suf : List Char) :
    ∀ pre t, decodeGo "zero" t (pre ++ c :: suf) = decodeGo "zero" t (pre ++ '0' :: suf) := by
  intro pre
  induction pre with
  | nil => intro t; simp [decodeGo, hc, decodeMap_zero_digit]
  | cons a pre ih =>
    intro t
    cases h : decodeMap a with
    | some v => simp [decodeGo, h, ih]
    | none => simp [decodeGo, h, ih]

/-- C8: a character absent from the decode map contributes no digit position
under the skip policy, and behaves as digit value 0 (the zero digit) under the
substitute-zero policy. -/
theorem c8_skip_and_zero (pre : List Char) (c : Char) (suf : List Char)
    (hc : decodeMap c = none) :
    decode "skip" (pre ++ c :: suf) = decode "skip" (pre ++ suf) ∧
    decode "zero" (pre ++ c :: suf) = decode "zero" (pre ++ '0' :: suf) := by
  have hs : pyLower "skip" = "skip" := by decide
  have hz : pyLower "zero" = "zero" := by decide
  constructor
  · unfold decode
    rw [hs]
    exact decodeGo_skip_drop c hc suf pre 0
  · unfold decode
    rw [hz]
    exact decodeGo_zero_subst c hc suf pre 0

theorem c8_witness :
    decode "skip" ['1', '*', '2'] = .ok 34 ∧
    decode "zero" ['1', '*', '2'] = .ok 1026 := by
  have h := c8_skip_and_zero ['1'] '*' ['2'] (by decide)
  exact ⟨h.1.trans (by decide), h.2.trans (by decide)⟩

/-- C10: prepending the zero digit `'0'` never changes the decoded value,
under any policy. -/
theorem c10_leading_zero_padding (policy : String) (s : List Char) :
    decode policy ('0' :: s) = decode policy s := by
  unfold decode
  simp [decodeGo, decodeMap_zero_digit]

/-! ## Escaping transform (`magic_substitutions`) -/

/-- `magic_substitutions` of `B32_FUZZY_CONFIG` (`src/main.py:25-34`), in
declaration order: the escape character escapes itself first, then the
punctuation and whitespace literals. -/
def magicSubstitutions : List (Char × List Char) :=
  [('Q', ['Q', 'Q']), ('q', ['Q', 'Q']), (' ', ['Q', 'X']), ('.', ['Q', 'J']),
   ('!', ['Q', 'B']), (',', ['Q', 'C']), ('?', ['Q', 'K']), ('\n', ['Q', 'N'])]

/-- Python `text.replace(original, code)` for a single-character `original`:
every occurrence of the character is replaced by the code, all other
characters pass through. -/
def replaceChar (o : Char) (code : List Char) : List Char → List Char
  | [] => []
  | c :: rest => (if c = o then code else [c]) ++ replaceChar o code rest

/-- `PinCode32Service.apply_magic_substitutions` (`src/main.py:99-105`): the
substitutions applied sequentially in declaration order, each pass feeding the
next.  The source's `if original in text` guard is redundant (`str.replace`
is the identity when the pattern is absent) and is not modelled. -/
def apply_magic_substitutions (text : List Char) : List Char :=
  magicSubstitutions.foldl (fun t p => replaceChar p.1 p.2 t) text

/-- Lookup of a token in an association list of (token, literal) pairs,
first match wins. -/
def revLookup (k : List Char) : List (List Char × Char) → Option Char
  | [] => none
  | e :: rest => if k = e.1 then some e.2 else revLookup k rest

/-- One step of the reverse-map construction loop (`src/main.py:69-76`): a new
code is appended; an already-present code is overwritten only when the
original is the capital `'Q'`. -/
def revInsert (acc : List (List Char × Char)) (orig : Char) (code : List Char) :
    List (List Char × Char) :=
  if (revLookup code acc).isSome then
    if orig = 'Q' then acc.map (fun e => if e.1 = code then (code, orig) else e)
    else acc
  else acc ++ [(code, orig)]

/-- `self.reverse_magic_map` (`src/main.py:65-76`): the token-to-literal map,
as an insertion-ordered association list mirroring the Python dict. -/
def reverse_magic_map : List (List Char × Char) :=
  magicSubstitutions.foldl (fun acc p => revInsert acc p.1 p.2) []

/-- `PinCode32Service.reverse_magic_substitutions` (`src/main.py:107-121`).
The compiled pattern is the alternation of the (all two-character) tokens;
`re.sub` scans left to right, replaces each non-overlapping leftmost match by
its literal and copies every other character, which for two-character tokens
is exactly this scanner. -/
def reverse_magic_substitutions : List Char → List Char
  | [] => []
  | [c] => [c]
  | c1 :: c2 :: rest =>
    match revLookup [c1, c2] reverse_magic_map with
    | some orig => orig :: reverse_magic_substitutions rest
    | none => c1 :: reverse_magic_substitutions (c2 :: rest)

/-! ## Normalization pipeline -/

/-- Python `str.strip()` whitespace test, exact for code points below `0x100`
(the whitespace characters above that range are outside the scope of this
development's statements). -/
def pyIsSpace (c : Char) : Bool :=
  decide (c.toNat = 9 ∨ c.toNat = 10 ∨ c.toNat = 11 ∨ c.toNat = 12 ∨
    c.toNat = 13 ∨ (28 ≤ c.toNat ∧ c.toNat ≤ 32) ∨ c.toNat = 0x85 ∨
    c.toNat = 0xA0)

/-- Python `str.strip()`: drop whitespace from both ends. -/
def pyStrip (s : List Char) : List Char :=
  ((s.dropWhile pyIsSpace).reverse.dropWhile pyIsSpace).reverse

/-- Hex digit value, as accepted by `urllib.parse.unquote`'s `%XX` escapes. -/
def hexVal (c : Char) : Option Nat :=
  if '0' ≤ c ∧ c ≤ '9' then some (c.toNat - 48)
  else if 'A' ≤ c ∧ c ≤ 'F' then some (c.toNat - 55)
  else if 'a' ≤ c ∧ c ≤ 'f' then some (c.toNat - 87)
  else none

/-- First pass of `urllib.parse.unquote`, with fuel for structural recursion:
each valid `%XX` escape becomes a byte (`Sum.inl`), every other character
stays literal (`Sum.inr`); a `%` not followed by two hex digits stays a
literal `%`.  Every step consumes at least one character, so fuel equal to
the length of the input (as supplied by `tokenize`) never runs out. -/
def tokenizeAux : Nat → List Char → List (Sum Nat Char)
  | 0, _ => []
  | _ + 1, [] => []
  | f + 1, c :: rest =>
    if c = '%' then
      match rest with
      | h1 :: h2 :: rest2 =>
        match hexVal h1, hexVal h2 with
        | some a, some b => Sum.inl (a * 16 + b) :: tokenizeAux f rest2
        | _, _ => Sum.inr c :: tokenizeAux f rest
      | _ => Sum.inr c :: tokenizeAux f rest
    else Sum.inr c :: tokenizeAux f rest

/-- The escape-splitting pass of `unquote` on a whole string. -/
def tokenize (s : List Char) : List (Sum Nat Char) :=
  tokenizeAux s.length s

/-- UTF-8 decoding with `errors="replace"` semantics (each maximal invalid
subpart yields one U+FFFD), as `unquote` applies to each run of escaped
bytes; fuelled for structural recursion, and every step consumes at least one
byte, so fuel equal to the length of the byte run never runs out. -/
def utf8Aux : Nat → List Nat → List Char
  | 0, _ => []
  | _ + 1, [] => []
  | f + 1, b :: rest =>
    if b < 0x80 then Char.ofNat b :: utf8Aux f rest
    else if 0xC2 ≤ b ∧ b ≤ 0xDF then
      match rest with
      | c1 :: rest2 =>
        if 0x80 ≤ c1 ∧ c1 ≤ 0xBF then
          Char.ofNat ((b - 0xC0) * 64 + (c1 - 0x80)) :: utf8Aux f rest2
        else '�' :: utf8Aux f rest
      | [] => ['�']
    else if 0xE0 ≤ b ∧ b ≤ 0xEF then
      match rest with
      | c1 :: rest2 =>
        if (if b = 0xE0 then 0xA0 ≤ c1 ∧ c1 ≤ 0xBF
            else if b = 0xED then 0x80 ≤ c1 ∧ c1 ≤ 0x9F
            else 0x80 ≤ c1 ∧ c1 ≤ 0xBF) then
          match rest2 with
          | c2 :: rest3 =>
            if 0x80 ≤ c2 ∧ c2 ≤ 0xBF then
              Char.ofNat ((b - 0xE0) * 4096 + (c1 - 0x80) * 64 + (c2 - 0x80)) ::
                utf8Aux f rest3
            else '�' :: utf8Aux f rest2
          | [] => ['�']
        else '�' :: utf8Aux f rest
      | [] => ['�']
    else if 0xF0 ≤ b ∧ b ≤ 0xF4 then
      match rest with
      | c1 :: rest2 =>
        if (if b = 0xF0 then 0x90 ≤ c1 ∧ c1 ≤ 0xBF
            else if b = 0xF4 then 0x80 ≤ c1 ∧ c1 ≤ 0x8F
            else 0x80 ≤ c1 ∧ c1 ≤ 0xBF) then
          match rest2 with
          | c2 :: rest3 =>
            if 0x80 ≤ c2 ∧ c2 ≤ 0xBF then
              match rest3 with
              | c3 :: rest4 =>
                if 0x80 ≤ c3 ∧ c3 ≤ 0xBF then
                  Char.ofNat ((b - 0xF0) * 262144 + (c1 - 0x80) * 4096 +
                    (c2 - 0x80) * 64 + (c3 - 0x80)) :: utf8Aux f rest4
                else '�' :: utf8Aux f rest3
              | [] => ['�']
            else '�' :: utf8Aux f rest2
          | [] => ['�']
        else '�' :: utf8Aux f rest
      | [] => ['�']
    else '�' :: utf8Aux f rest

/-- UTF-8 decoding of a byte run with replacement, fuelled by its length. -/
def utf8Replace (bs : List Nat) : List Char :=
  utf8Aux bs.length bs

/-- Whether an unquote token is an escaped byte. -/
def isByteTok : Sum Nat Char → Bool
  | .inl _ => true
  | .inr _ => false

/-- The byte held by an escaped-byte token. -/
def tokVal : Sum Nat Char → Nat
  | .inl b => b
  | .inr _ => 0

/-- Second pass of `unquote`, with fuel for structural recursion: each
maximal run of escaped bytes is UTF-8 decoded with replacement, literal
characters pass through.  Every step consumes at least one token, so fuel
equal to the length of the token list (as supplied by `detok`) never runs
out. -/
def detokAux : Nat → List (Sum Nat Char) → List Char
  | 0, _ => []
  | _ + 1, [] => []
  | f + 1, .inr c :: rest => c :: detokAux f rest
  | f + 1, .inl b :: rest =>
    utf8Replace (b :: (rest.takeWhile isByteTok).map tokVal) ++
      detokAux f (rest.dropWhile isByteTok)

/-- The byte-run decoding pass of `unquote` on a whole token list. -/
def detok (l : List (Sum Nat Char)) : List Char :=
  detokAux l.length l

/-- `urllib.parse.unquote` (`src/main.py:4,125`) on the character level:
percent-escapes are decoded bytewise and each maximal byte run is UTF-8
decoded with replacement. -/
def pyUnquote (s : List Char) : List Char :=
  detok (tokenize s)

/-- Whether `pat` is an initial run of `s` (used to model `str.split` on a
multi-character separator). -/
def leadsWith : List Char → List Char → Bool
  | [], _ => true
  | _ :: _, [] => false
  | p :: ps, c :: cs => p == c && leadsWith ps cs

/-- Python `s.split(sep, 1)` viewed as the pair around the first occurrence of
`sep`: `some (before, after)` when `sep` occurs, `none` otherwise. -/
def splitFirst (pat : List Char) : List Char → Option (List Char × List Char)
  | [] => if leadsWith pat [] then some ([], ([] : List Char).drop pat.length) else none
  | c :: t =>
    if leadsWith pat (c :: t) then some ([], (c :: t).drop pat.length)
    else (splitFirst pat t).map (fun pr => (c :: pr.1, pr.2))

/-- The URL scheme marker `"://"`. -/
def schemeSep : List Char := [':', '/', '/']

/-- `PinCode32Service.extract_payload` (`src/main.py:123-134`): strip, percent
decode, and when the string contains `"://"` and the part after it contains a
`"/"`, return what follows that first slash; otherwise return the whole
stripped decoded string.  The `try/except` of the source cannot fire (the
string operations it wraps do not raise) and is not modelled. -/
def extract_payload (raw : List Char) : List Char :=
  let s := pyUnquote (pyStrip raw)
  if s = [] then []
  else
    match splitFirst schemeSep s with
    | some pr =>
      match splitFirst ['/'] pr.2 with
      | some pr2 => pr2.2
      | none => s
    | none => s

/-- `separators` of `B32_FUZZY_CONFIG` (`src/main.py:12`). -/
def separators : List Char :=
  ['-', '_', '/', ':', '@', '?', '=', '&', '%', '#']

/-- Python `str.isalnum` on one character, exact for code points below
`0x100` (ASCII digits and letters, and the Latin-1 letters, ordinal
indicators, superscripts and vulgar fractions).  Code points at or above
`0x100` are outside the scope of this development's statements and are
modelled as non-alphanumeric. -/
def pyIsAlnum (c : Char) : Bool :=
  decide ((48 ≤ c.toNat ∧ c.toNat ≤ 57) ∨ (65 ≤ c.toNat ∧ c.toNat ≤ 90) ∨
    (97 ≤ c.toNat ∧ c.toNat ≤ 122) ∨ c.toNat = 0xAA ∨ c.toNat = 0xB2 ∨
    c.toNat = 0xB3 ∨ c.toNat = 0xB5 ∨ c.toNat = 0xB9 ∨ c.toNat = 0xBA ∨
    (0xBC ≤ c.toNat ∧ c.toNat ≤ 0xBE) ∨
    (0xC0 ≤ c.toNat ∧ c.toNat ≤ 0xFF ∧ c.toNat ≠ 0xD7 ∧ c.toNat ≠ 0xF7))

/-- The case fold of `src/main.py:150-151`: ASCII lower-case letters other
than `'u'` are upper-cased (`"a" <= ch <= "z"` is a code-point comparison in
Python, and `ch.upper()` on such a character is the ASCII upper case). -/
def upperApply (ch : Char) : Char :=
  if 'a' ≤ ch ∧ ch ≤ 'z' ∧ ch ≠ 'u' then ch.toUpper else ch

/-- The alias fold of `src/main.py:152`: a character that is a key of
`char_alias` is replaced by its alias. -/
def aliasApply (ch : Char) : Char :=
  match List.lookup ch charAlias with
  | some v => v
  | none => ch

/-- The character loop of `normalize_for_decode` (`src/main.py:147-155`) with
the configured flags (`uppercase_letters` and `keep_alnum_only` both true):
drop separators, uppercase ASCII lower-case letters except `'u'`, apply the
alias table, keep only alphanumeric characters. -/
def normChars : List Char → List Char
  | [] => []
  | ch :: rest =>
    if ch ∈ separators then normChars rest
    else if pyIsAlnum (aliasApply (upperApply ch)) then
      aliasApply (upperApply ch) :: normChars rest
    else normChars rest

/-- `PinCode32Service.normalize_for_decode` (`src/main.py:136-155`): extract
the payload, apply the escaping transform, then the character loop. -/
def normalize_for_decode (raw : List Char) : List Char :=
  let payload := extract_payload raw
  if payload = [] then []
  else normChars (apply_magic_substitutions payload)

/-! ## C3 and C9: URL payload extraction -/

/-- C3 (code behaviour at the failing input): for a URL with scheme, host and
path, `extract_payload` returns only what follows the first slash after the
scheme marker and discards the host entirely, although the configuration
declares `url_mode = "host_plus_path"` with `url_joiner = "/"`. -/
theorem c3_host_discarded :
    extract_payload "http://example.com/Hello".toList = "Hello".toList := by
  decide

/-- C9: when the stripped, percent-decoded input contains `"://"` but the
part after it contains no `"/"`, `extract_payload` returns the whole
stripped, percent-decoded input unchanged, scheme prefix included. -/
theorem c9_scheme_without_slash (raw a parts : List Char)
    (h1 : splitFirst schemeSep (pyUnquote (pyStrip raw)) = some (a, parts))
    (h2 : splitFirst ['/'] parts = none) :
    extract_payload raw = pyUnquote (pyStrip raw) := by
  have hne : pyUnquote (pyStrip raw) ≠ [] := by
    intro h
    rw [h] at h1
    simp [splitFirst, leadsWith, schemeSep] at h1
  simp only [extract_payload, if_neg hne, h1, h2]

theorem c9_witness :
    extract_payload "http://example.com".toList = "http://example.com".toList := by
  have h := c9_scheme_without_slash "http://example.com".toList
    "http".toList "example.com".toList (by decide) (by decide)
  exact h.trans (by decide)

/-! ## C4: escape / unescape round trip -/

/-- Single-character replacement distributes over appending. -/
lemma replaceChar_append (o : Char) (code a b : List Char) :
    replaceChar o code (a ++ b) = replaceChar o code a ++ replaceChar o code b := by
  induction a with
  | nil => rfl
  | cons c t ih => simp [replaceChar, ih]

/-- Each sequential pass, and hence the whole forward transform, distributes
over appending. -/
lemma foldl_replace_append (subs : List (Char × List Char)) :
    ∀ a b, List.foldl (fun t p => replaceChar p.1 p.2 t) (a ++ b) subs =
      List.foldl (fun t p => replaceChar p.1 p.2 t) a subs ++
        List.foldl (fun t p => replaceChar p.1 p.2 t) b subs := by
  induction subs with
  | nil => intro a b; rfl
  | cons p subs ih =>
    intro a b
    simp only [List.foldl_cons, replaceChar_append, ih]

/-- The forward transform distributes over appending. -/
lemma magic_append (a b : List Char) :
    apply_magic_substitutions (a ++ b) =
      apply_magic_substitutions a ++ apply_magic_substitutions b :=
  foldl_replace_append magicSubstitutions a b

/-- The per-character effect of the eight sequential passes: each escape
literal becomes its token (both `'Q'` and `'q'` become `"QQ"`), every other
character passes through.  Proof-internal description, established against
`apply_magic_substitutions` in `magic_single`. -/
def escE (c : Char) : List Char :=
  if c = 'Q' then ['Q', 'Q']
  else if c = 'q' then ['Q', 'Q']
  else if c = ' ' then ['Q', 'X']
  else if c = '.' then ['Q', 'J']
  else if c = '!' then ['Q', 'B']
  else if c = ',' then ['Q', 'C']
  else if c = '?' then ['Q', 'K']
  else if c = '\n' then ['Q', 'N']
  else [c]

/-- On a single character the forward transform acts as `escE`. -/
lemma magic_single (c : Char) : apply_magic_substitutions [c] = escE c := by
  by_cases h1 : c = 'Q'
  · subst h1; decide
  by_cases h2 : c = 'q'
  · subst h2; decide
  by_cases h3 : c = ' '
  · subst h3; decide
  by_cases h4 : c = '.'
  · subst h4; decide
  by_cases h5 : c = '!'
  · subst h5; decide
  by_cases h6 : c = ','
  · subst h6; decide
  by_cases h7 : c = '?'
  · subst h7; decide
  by_cases h8 : c = '\n'
  · subst h8; decide
  simp [apply_magic_substitutions, magicSubstitutions, escE, replaceChar,
    h1, h2, h3, h4, h5, h6, h7, h8]

/-- The forward transform works character by character. -/
lemma magic_cons (c : Char) (t : List Char) :
    apply_magic_substitutions (c :: t) = escE c ++ apply_magic_substitutions t := by
  rw [show c :: t = [c] ++ t from rfl, magic_append, magic_single]

/-- The constructed reverse map, computed: `"QQ"` recovers the canonical
`'Q'` (the lower-case entry is skipped), and each remaining token recovers
its literal. -/
lemma reverse_magic_map_eq :
    reverse_magic_map =
      [(['Q', 'Q'], 'Q'), (['Q', 'X'], ' '), (['Q', 'J'], '.'), (['Q', 'B'], '!'),
       (['Q', 'C'], ','), (['Q', 'K'], '?'), (['Q', 'N'], '\n')] := by
  decide

/-- A character other than `'Q'` never starts a token, so the reverse scan
passes it through. -/
lemma un_nonQ (c : Char) (h : c ≠ 'Q') (t : List Char) :
    reverse_magic_substitutions (c :: t) = c :: reverse_magic_substitutions t := by
  cases t with
  | nil => rfl
  | cons c2 r =>
    have hl : revLookup [c, c2] reverse_magic_map = none := by
      rw [reverse_magic_map_eq]
      simp [revLookup, h]
    simp [reverse_magic_substitutions, hl]

/-- A token at the head of the reverse scan is replaced by its literal. -/
lemma un_tok (x orig : Char) (hx : revLookup ['Q', x] reverse_magic_map = some orig)
    (t : List Char) :
    reverse_magic_substitutions ('Q' :: x :: t) = orig :: reverse_magic_substitutions t := by
  simp [reverse_magic_substitutions, hx]

/-- C4 counterexample: `'q'` is one of the escape table's literals, yet
escaping it yields `"QQ"` and unescaping recovers the canonical `'Q'`, not
`'q'`: the round trip fails on the claimed domain. -/
theorem c4_counterexample :
    reverse_magic_substitutions (apply_magic_substitutions ['q']) ≠ ['q'] ∧
    apply_magic_substitutions ['q'] = ['Q', 'Q'] ∧
    reverse_magic_substitutions (apply_magic_substitutions ['q']) = ['Q'] := by
  decide

/-- C4 (amended): for every string that does not contain the lower-case
escape character `'q'` — in particular any string over the escape table's
other literals and the legal alphabet — unescaping the escaped string
recovers the original exactly. -/
theorem c4_roundtrip (s : List Char) (h : ∀ c ∈ s, c ≠ 'q') :
    reverse_magic_substitutions (apply_magic_substitutions s) = s := by
  induction s with
  | nil => rfl
  | cons c t ih =>
    have hc : c ≠ 'q' := h c (List.mem_cons_self c t)
    have ht : ∀ a ∈ t, a ≠ 'q' := fun a ha => h a (List.mem_cons_of_mem c ha)
    rw [magic_cons]
    by_cases h1 : c = 'Q'
    · subst h1
      rw [show escE 'Q' ++ apply_magic_substitutions t =
        'Q' :: 'Q' :: apply_magic_substitutions t from rfl,
        un_tok 'Q' 'Q' (by decide), ih ht]
    by_cases h3 : c = ' '
    · subst h3
      rw [show escE ' ' ++ apply_magic_substitutions t =
        'Q' :: 'X' :: apply_magic_substitutions t from rfl,
        un_tok 'X' ' ' (by decide), ih ht]
    by_cases h4 : c = '.'
    · subst h4
      rw [show escE '.' ++ apply_magic_substitutions t =
        'Q' :: 'J' :: apply_magic_substitutions t from rfl,
        un_tok 'J' '.' (by decide), ih ht]
    by_cases h5 : c = '!'
    · subst h5
      rw [show escE '!' ++ apply_magic_substitutions t =
        'Q' :: 'B' :: apply_magic_substitutions t from rfl,
        un_tok 'B' '!' (by decide), ih ht]
    by_cases h6 : c = ','
    · subst h6
      rw [show escE ',' ++ apply_magic_substitutions t =
        'Q' :: 'C' :: apply_magic_substitutions t from rfl,
        un_tok 'C' ',' (by decide), ih ht]
    by_cases h7 : c = '?'
    · subst h7
      rw [show escE '?' ++ apply_magic_substitutions t =
        'Q' :: 'K' :: apply_magic_substitutions t from rfl,
        un_tok 'K' '?' (by decide), ih ht]
    by_cases h8 : c = '\n'
    · subst h8
      rw [show escE '\n' ++ apply_magic_substitutions t =
        'Q' :: 'N' :: apply_magic_substitutions t from rfl,
        un_tok 'N' '\n' (by decide), ih ht]
    have hE : escE c = [c] := by
      simp [escE, h1, hc, h3, h4, h5, h6, h7, h8]
    rw [hE, List.singleton_append, un_nonQ c h1, ih ht]

theorem c4_witness :
    reverse_magic_substitutions (apply_magic_substitutions "A Q.B!".toList) =
      "A Q.B!".toList :=
  c4_roundtrip _ (by decide)

/-! ## C6: normalization output alphabet -/

/-- Dropping a while-prefix never adds characters. -/
lemma mem_of_dropWhile {p : Char → Bool} :
    ∀ {l : List Char} {c : Char}, c ∈ l.dropWhile p → c ∈ l := by
  intro l
  induction l with
  | nil => intro c h; simp at h
  | cons a t ih =>
    intro c h
    rw [List.dropWhile_cons] at h
    split at h
    · exact List.mem_cons_of_mem a (ih h)
    · exact h

/-- Stripping never adds characters. -/
lemma mem_pyStrip {s : List Char} {c : Char} (h : c ∈ pyStrip s) : c ∈ s := by
  simp only [pyStrip, List.mem_reverse] at h
  exact mem_of_dropWhile (List.mem_reverse.mp (mem_of_dropWhile h))

/-- Dropping a prefix never adds characters. -/
lemma mem_of_drop {α : Type} : ∀ (n : Nat) (l : List α) {c : α}, c ∈ l.drop n → c ∈ l := by
  intro n
  induction n with
  | zero => intro l c h; rw [List.drop_zero] at h; exact h
  | succ n ih =>
    intro l c h
    cases l with
    | nil => simp at h
    | cons a t => exact List.mem_cons_of_mem a (ih t h)

/-- The part after the first occurrence of the separator is made of characters
of the split string. -/
lemma mem_splitFirst_right (pat : List Char) :
    ∀ (s : List Char) (pr : List Char × List Char), splitFirst pat s = some pr →
      ∀ c ∈ pr.2, c ∈ s := by
  intro s
  induction s with
  | nil =>
    intro pr h c hc
    simp only [splitFirst] at h
    split at h
    · cases h
      simp at hc
    · cases h
  | cons d t ih =>
    intro pr h c hc
    simp only [splitFirst] at h
    split at h
    · cases h
      exact mem_of_drop _ _ hc
    · cases ho : splitFirst pat t with
      | none => rw [ho] at h; cases h
      | some pr0 =>
        rw [ho, Option.map_some'] at h
        cases h
        exact List.mem_cons_of_mem d (ih pr0 ho c hc)

/-- The extracted payload is made of characters of the stripped,
percent-decoded input. -/
lemma mem_extract_payload {raw : List Char} {c : Char}
    (h : c ∈ extract_payload raw) : c ∈ pyUnquote (pyStrip raw) := by
  simp only [extract_payload] at h
  by_cases he : pyUnquote (pyStrip raw) = []
  · rw [if_pos he] at h
    simp at h
  · rw [if_neg he] at h
    cases h1 : splitFirst schemeSep (pyUnquote (pyStrip raw)) with
    | none => rw [h1] at h; exact h
    | some pr =>
      rw [h1] at h
      have h' : c ∈ (match splitFirst ['/'] pr.2 with
        | some pr2 => pr2.2
        | none => pyUnquote (pyStrip raw)) := h
      cases h2 : splitFirst ['/'] pr.2 with
      | none => rw [h2] at h'; exact h'
      | some pr2 =>
        rw [h2] at h'
        exact mem_splitFirst_right schemeSep _ pr h1 c
          (mem_splitFirst_right ['/'] _ pr2 h2 c h')

/-- The escape-splitting pass is the identity embedding on a `%`-free
string. -/
lemma tokenizeAux_no_pct :
    ∀ (f : Nat) (s : List Char), s.length ≤ f → (∀ c ∈ s, c ≠ '%') →
      tokenizeAux f s = s.map Sum.inr := by
  intro f
  induction f with
  | zero =>
    intro s hl _
    cases s with
    | nil => rfl
    | cons c t => simp at hl
  | succ f ih =>
    intro s hl h
    cases s with
    | nil => rfl
    | cons c t =>
      have hc : c ≠ '%' := h c (List.mem_cons_self c t)
      have hlt : t.length ≤ f := by simpa using hl
      simp [tokenizeAux, hc, ih t hlt (fun a ha => h a (List.mem_cons_of_mem c ha))]

/-- The byte-run decoding pass is the identity on a list of literal tokens. -/
lemma detokAux_all_inr :
    ∀ (f : Nat) (s : List Char), s.length ≤ f →
      detokAux f (s.map Sum.inr) = s := by
  intro f
  induction f with
  | zero =>
    intro s hl
    cases s with
    | nil => rfl
    | cons c t => simp at hl
  | succ f ih =>
    intro s hl
    cases s with
    | nil => rfl
    | cons c t =>
      have hlt : t.length ≤ f := by simpa using hl
      simp [detokAux, ih t hlt]

/-- Percent decoding is the identity on a `%`-free string. -/
lemma pyUnquote_no_pct (s : List Char) (h : ∀ c ∈ s, c ≠ '%') :
    pyUnquote s = s := by
  unfold pyUnquote tokenize detok
  rw [tokenizeAux_no_pct s.length s le_rfl h, List.length_map]
  exact detokAux_all_inr s.length s le_rfl

/-- Characters of a replacement pass come from the code or from the input. -/
lemma mem_replaceChar {o : Char} {code s : List Char} {c : Char}
    (h : c ∈ replaceChar o code s) : c ∈ code ∨ c ∈ s := by
  induction s with
  | nil => simp [replaceChar] at h
  | cons a t ih =>
    simp only [replaceChar, List.mem_append] at h
    rcases h with h | h
    · split at h
      · exact Or.inl h
      · simp at h
        exact Or.inr (by simp [h])
    · rcases ih h with h2 | h2
      · exact Or.inl h2
      · exact Or.inr (List.mem_cons_of_mem a h2)

/-- Sequential replacement passes with ASCII codes preserve ASCII inputs. -/
lemma foldl_replace_ascii :
    ∀ (subs : List (Char × List Char)),
      (∀ p ∈ subs, ∀ a ∈ p.2, a.toNat < 128) →
      ∀ (s : List Char), (∀ a ∈ s, a.toNat < 128) →
      ∀ a ∈ List.foldl (fun t p => replaceChar p.1 p.2 t) s subs, a.toNat < 128 := by
  intro subs
  induction subs with
  | nil =>
    intro _ s hs a ha
    simp only [List.foldl_nil] at ha
    exact hs a ha
  | cons p subs ih =>
    intro hsubs s hs a ha
    simp only [List.foldl_cons] at ha
    refine ih (fun q hq => hsubs q (List.mem_cons_of_mem p hq)) _ ?_ a ha
    intro b hb
    rcases mem_replaceChar hb with h2 | h2
    · exact hsubs p (List.mem_cons_self p subs) b h2
    · exact hs b h2

/-- The escaping transform preserves ASCII (its tokens are ASCII). -/
lemma magic_ascii (s : List Char) (h : ∀ a ∈ s, a.toNat < 128) :
    ∀ a ∈ apply_magic_substitutions s, a.toNat < 128 :=
  foldl_replace_ascii magicSubstitutions (by decide) s h

/-- Every ASCII character that survives the uppercase fold, the alias fold
and the alphanumeric filter is a charset symbol. -/
lemma normStep_ascii :
    ∀ n < 128, pyIsAlnum (aliasApply (upperApply (Char.ofNat n))) = true →
      aliasApply (upperApply (Char.ofNat n)) ∈ charset := by
  decide

/-- On ASCII input the character loop emits only charset symbols. -/
lemma normChars_ascii :
    ∀ (s : List Char), (∀ a ∈ s, a.toNat < 128) →
      ∀ c ∈ normChars s, c ∈ charset := by
  intro s
  induction s with
  | nil => intro _ c hc; simp [normChars] at hc
  | cons ch t ih =>
    intro h c hc
    have hch : ch.toNat < 128 := h ch (List.mem_cons_self ch t)
    have ht : ∀ a ∈ t, a.toNat < 128 := fun a ha => h a (List.mem_cons_of_mem ch ha)
    simp only [normChars] at hc
    split at hc
    · exact ih ht c hc
    · split at hc
      · rename_i halnum
        rcases List.mem_cons.mp hc with rfl | hmem
        · have key := normStep_ascii ch.toNat hch
          rw [Char.ofNat_toNat] at key
          exact key halnum
        · exact ih ht c hmem
      · exact ih ht c hc

/-- C6 counterexample: the non-ASCII letter `'é'` survives the pipeline
unchanged (`é` is alphanumeric to Python, is not a separator, is not folded
and is not aliased) and is not a symbol of the 32-character alphabet. -/
theorem c6_counterexample :
    normalize_for_decode ['é'] = ['é'] ∧ ('é' ∈ charset → False) := by
  decide

/-- C6 (amended): for ASCII input containing no percent-escape, every
character of `normalize_for_decode`'s output is a symbol of the legal
32-character alphabet. -/
theorem c6_ascii_normalize_alphabet (raw : List Char)
    (hascii : ∀ c ∈ raw, c.toNat < 128) (hpct : ∀ c ∈ raw, c ≠ '%') :
    (normalize_for_decode raw).all (fun c => decide (c ∈ charset)) = true := by
  rw [List.all_eq_true]
  intro c hc
  rw [decide_eq_true_eq]
  have hpay : ∀ a ∈ extract_payload raw, a.toNat < 128 := by
    intro a ha
    have h1 := mem_extract_payload ha
    rw [pyUnquote_no_pct _ (fun x hx => hpct x (mem_pyStrip hx))] at h1
    exact hascii a (mem_pyStrip h1)
  simp only [normalize_for_decode] at hc
  split at hc
  · simp at hc
  · exact normChars_ascii _ (magic_ascii _ hpay) c hc

theorem c6_witness :
    (normalize_for_decode "Hello World!".toList).all
      (fun c => decide (c ∈ charset)) = true :=
  c6_ascii_normalize_alphabet _ (by decide) (by decide)

end PinCode32
